import Mathlib

/-!
Verification of `src/libtest/src/data/formatter.py` (repository `desprit/geo-rs`).

The script reads a semicolon-delimited city file, strips each line,
splits it with Python's `line.split(";")` and unpacks the result into
exactly two variables (`code, name = line.split(";")`, which raises a
`ValueError` unless the split yields exactly two parts), groups city
names by state code in a Python 3.7+ insertion-ordered `dict` via
`setdefault`/`append`, sorts each group with the stable
`sorted(v, key=lambda x: len(x), reverse=True)`, and only then opens the
output file and writes one `code;city` line per record.

The embedding below models a line as a `List Char`.  File I/O is
abstracted away: the program becomes a function from the list of raw
input lines to `Except Unit` of the list of output lines.  An `error`
result models the Python run raising before the output file is opened
(the `open("./tmp.txt", "w")` happens strictly after the parse loop),
so `error` means no output file is created or touched.
-/

namespace GeoRs

/-- A line of text, modelled as its list of characters. -/
abbrev Line := List Char

/-- The whitespace test of Python's `str.strip()` (the ASCII whitespace
characters; Python also strips a few Unicode spaces, which the data
format never contains). -/
def isSpace (c : Char) : Bool :=
  c = ' ' || c = '\t' || c = '\n' || c = '\r' || c = '\x0b' || c = '\x0c'

/-- Python's `line.strip()`: remove leading and trailing whitespace. -/
def stripChars (l : Line) : Line :=
  ((l.dropWhile isSpace).reverse.dropWhile isSpace).reverse

/-- Python's `line.split(";")`: split at every semicolon; a line with
`n` semicolons yields `n + 1` (possibly empty) fields. -/
def splitOnSemi : Line → List Line
  | [] => [[]]
  | c :: rest =>
    if c = ';' then [] :: splitOnSemi rest
    else
      match splitOnSemi rest with
      | [] => [[c]]
      | p :: ps => (c :: p) :: ps

/-- `code, name = line.split(";")`: succeeds exactly when the split has
exactly two fields, i.e. the line has exactly one `;`; otherwise Python
raises `ValueError`, modelled as `Except.error ()`. -/
def parseLine (l : Line) : Except Unit (Line × Line) :=
  match splitOnSemi l with
  | [code, name] => Except.ok (code, name)
  | _ => Except.error ()

/-- The parse loop over all lines: Python raises at the first bad line,
so the whole run fails if any line fails. -/
def parseLines : List Line → Except Unit (List (Line × Line))
  | [] => Except.ok []
  | l :: ls =>
    match parseLine l with
    | Except.error e => Except.error e
    | Except.ok p =>
      match parseLines ls with
      | Except.error e => Except.error e
      | Except.ok ps => Except.ok (p :: ps)

/-- One step of `states.setdefault(code, []); states[code].append(name)`
on an insertion-ordered association list: append `name` to the existing
entry for `code`, or add a new `(code, [name])` entry at the end. -/
def addRecord : List (Line × List Line) → Line → Line → List (Line × List Line)
  | [], code, name => [(code, [name])]
  | (k, v) :: rest, code, name =>
    if k = code then (k, v ++ [name]) :: rest
    else (k, v) :: addRecord rest code name

/-- The grouping loop: fold all parsed records into the ordered table. -/
def groupRecords (recs : List (Line × Line)) : List (Line × List Line) :=
  recs.foldl (fun t r => addRecord t r.1 r.2) []

/-- Lookup in the ordered table (`states[code]`); `[]` if absent. -/
def getCities : List (Line × List Line) → Line → List Line
  | [], _ => []
  | (k, v) :: rest, code => if k = code then v else getCities rest code

/-- The sort key order of `sorted(v, key=lambda x: len(x), reverse=True)`:
`a` may be placed before `b` iff `a` is at least as long. -/
def longerEq (a b : Line) : Prop := b.length ≤ a.length

instance : DecidableRel longerEq := fun a b => Nat.decLe b.length a.length

instance : IsTotal Line longerEq :=
  ⟨fun a b => Nat.le_total b.length a.length⟩

instance : IsTrans Line longerEq :=
  ⟨fun _ _ _ h₁ h₂ => Nat.le_trans h₂ h₁⟩

/-- Python's `sorted(v, key=lambda x: len(x), reverse=True)`: a stable
sort by non-increasing length.  A stable sort for a total preorder is
unique, so Timsort is modelled by stable insertion sort. -/
def sortCities (v : List Line) : List Line :=
  v.insertionSort longerEq

/-- The write loop, producing the `(code, city)` pairs in output order:
groups in table (= key insertion) order, each group sorted. -/
def outputPairs : List (Line × List Line) → List (Line × Line)
  | [] => []
  | (k, v) :: rest => (sortCities v).map (fun c => (k, c)) ++ outputPairs rest

/-- `w.write(f"{k};{city}\n")`, as the content of the written line. -/
def renderPair (p : Line × Line) : Line := p.1 ++ ';' :: p.2

/-- The whole run, down to the `(code, city)` pairs that get written:
strip every line, parse them all (failing fast), group, sort, emit.
`error` models the Python run raising before the output file is
opened. -/
def formatterPairs (raw : List Line) : Except Unit (List (Line × Line)) :=
  match parseLines (raw.map stripChars) with
  | Except.error e => Except.error e
  | Except.ok recs => Except.ok (outputPairs (groupRecords recs))

/-- The whole run, down to the lines of the output file. -/
def formatter (raw : List Line) : Except Unit (List Line) :=
  match formatterPairs raw with
  | Except.error e => Except.error e
  | Except.ok ps => Except.ok (ps.map renderPair)

/-- Spec-side parse, from the spec's words (§4.2 "split each line on the
first `;`; first field is the key, second is the value"): split at the
FIRST semicolon only, keeping later semicolons inside the value.  Used
to compare the spec's described behaviour with the code's. -/
def specSplitFirst (l : Line) : Line × Line :=
  (l.takeWhile (fun c => c ≠ ';'), (l.dropWhile (fun c => c ≠ ';')).tail)

/-- Spec-side loader, from the spec's words (§4.1 "ordered sequence of
trimmed lines (trailing newline/whitespace stripped)"): strip trailing
whitespace only. -/
def specRstrip (l : Line) : Line :=
  (l.reverse.dropWhile isSpace).reverse

/-- First-appearance order of the distinct codes of a list, from the
spec's words ("the order in which distinct keys first appear while
scanning input top-to-bottom"). -/
def firstSeenAux (acc : List Line) : List Line → List Line
  | [] => acc
  | c :: cs => firstSeenAux (if c ∈ acc then acc else acc ++ [c]) cs

/-- The distinct codes of a list, in order of first appearance. -/
def firstSeen (codes : List Line) : List Line :=
  firstSeenAux [] codes

/-- Number of semicolons in a line. -/
def countSemi : Line → Nat
  | [] => 0
  | c :: cs => (if c = ';' then 1 else 0) + countSemi cs

/-- The cities of one state, in the order their records occur in a
record list. -/
def citiesOf : List (Line × Line) → Line → List Line
  | [], _ => []
  | r :: rs, k => if r.1 = k then r.2 :: citiesOf rs k else citiesOf rs k

/-- The records of one state, in the order they occur in a record
list. -/
def pairsOf (k : Line) : List (Line × Line) → List (Line × Line)
  | [] => []
  | r :: rs => if r.1 = k then r :: pairsOf k rs else pairsOf k rs

/-- The sublist of the cities with a given name length, in order. -/
def ofLength (n : Nat) : List Line → List Line
  | [] => []
  | c :: cs => if c.length = n then c :: ofLength n cs else ofLength n cs

/-- The table flattened to records without sorting the groups. -/
def flatPairs : List (Line × List Line) → List (Line × Line)
  | [] => []
  | (k, v) :: rest => v.map (fun c => (k, c)) ++ flatPairs rest

/-- The table with every group sorted (the state of the dict as the
write loop consumes it). -/
def sortTable (t : List (Line × List Line)) : List (Line × List Line) :=
  t.map (fun kv => (kv.1, sortCities kv.2))

/-- The first character, if any, is not whitespace. -/
def goodHead (c : Line) : Prop := ∀ h ∈ c.head?, isSpace h = false

/-- The last character, if any, is not whitespace. -/
def goodLast (c : Line) : Prop := ∀ h ∈ c.getLast?, isSpace h = false

/-! ### Lemmas about `splitOnSemi` and parsing -/

theorem splitOnSemi_ne_nil (l : Line) : splitOnSemi l ≠ [] := by
  cases l with
  | nil => simp [splitOnSemi]
  | cons c rest =>
    by_cases hc : c = ';'
    · simp [splitOnSemi, hc]
    · cases h : splitOnSemi rest <;> simp [splitOnSemi, hc, h]

theorem splitOnSemi_no_semi {l : Line} (h : ';' ∉ l) : splitOnSemi l = [l] := by
  induction l with
  | nil => rfl
  | cons c rest ih =>
    have hc : ¬ c = ';' := fun he => h (he ▸ List.mem_cons_self c rest)
    have hr : ';' ∉ rest := fun hm => h (List.mem_cons_of_mem c hm)
    simp [splitOnSemi, hc, ih hr]

theorem splitOnSemi_append {c : Line} (n : Line) (hc : ';' ∉ c) :
    splitOnSemi (c ++ ';' :: n) = c :: splitOnSemi n := by
  induction c with
  | nil => simp [splitOnSemi]
  | cons a c' ih =>
    have ha : ¬ a = ';' := fun he => hc (he ▸ List.mem_cons_self a c')
    have hc' : ';' ∉ c' := fun hm => hc (List.mem_cons_of_mem a hm)
    rw [List.cons_append, splitOnSemi, if_neg ha, ih hc']

theorem splitOnSemi_length (l : Line) :
    (splitOnSemi l).length = countSemi l + 1 := by
  induction l with
  | nil => rfl
  | cons c rest ih =>
    by_cases hc : c = ';'
    · simp [splitOnSemi, countSemi, hc, ih, Nat.add_comm]
    · cases h : splitOnSemi rest with
      | nil => exact absurd h (splitOnSemi_ne_nil rest)
      | cons p ps =>
        simp only [splitOnSemi, hc, if_false, h, List.length_cons]
        simpa [countSemi, hc, h] using ih

theorem splitOnSemi_singleton {l x : Line} (h : splitOnSemi l = [x]) :
    l = x ∧ ';' ∉ x := by
  induction l generalizing x with
  | nil =>
    simp only [splitOnSemi, List.cons.injEq] at h
    refine ⟨h.1, ?_⟩
    rw [← h.1]
    exact List.not_mem_nil ';'
  | cons a rest ih =>
    by_cases ha : a = ';'
    · simp only [splitOnSemi, ha, if_true, List.cons.injEq] at h
      exact absurd h.2 (splitOnSemi_ne_nil rest)
    · cases hr : splitOnSemi rest with
      | nil => exact absurd hr (splitOnSemi_ne_nil rest)
      | cons p ps =>
        simp only [splitOnSemi, ha, if_false, hr, List.cons.injEq] at h
        obtain ⟨hx, hps⟩ := h
        have := ih (x := p) (by rw [hr, hps])
        refine ⟨by rw [← hx, this.1], ?_⟩
        rw [← hx]
        intro hm
        rcases List.mem_cons.mp hm with h1 | h2
        · exact ha h1.symm
        · exact this.2 h2

theorem splitOnSemi_pair {l c n : Line} (h : splitOnSemi l = [c, n]) :
    l = c ++ ';' :: n ∧ ';' ∉ c ∧ ';' ∉ n := by
  induction l generalizing c n with
  | nil => simp [splitOnSemi] at h
  | cons a rest ih =>
    by_cases ha : a = ';'
    · simp only [splitOnSemi, ha, if_true, List.cons.injEq] at h
      obtain ⟨hc, hrest⟩ := h
      have hs := splitOnSemi_singleton (l := rest) (x := n) (by simpa using hrest)
      subst ha
      refine ⟨?_, ?_, hs.2⟩
      · rw [← hc, hs.1]
        rfl
      · rw [← hc]
        exact List.not_mem_nil ';'
    · cases hr : splitOnSemi rest with
      | nil => exact absurd hr (splitOnSemi_ne_nil rest)
      | cons p ps =>
        simp only [splitOnSemi, ha, if_false, hr, List.cons.injEq] at h
        obtain ⟨hc, hps⟩ := h
        have hrec := ih (c := p) (n := n) (by rw [hr, hps])
        refine ⟨?_, ?_, hrec.2.2⟩
        · rw [← hc, List.cons_append, hrec.1]
        · rw [← hc]
          intro hm
          rcases List.mem_cons.mp hm with h1 | h2
          · exact ha h1.symm
          · exact hrec.2.1 h2

theorem parseLine_render {c n : Line} (hc : ';' ∉ c) (hn : ';' ∉ n) :
    parseLine (c ++ ';' :: n) = Except.ok (c, n) := by
  unfold parseLine
  rw [splitOnSemi_append n hc, splitOnSemi_no_semi hn]

theorem parseLine_ok_iff {l c n : Line} :
    parseLine l = Except.ok (c, n) ↔ (l = c ++ ';' :: n ∧ ';' ∉ c ∧ ';' ∉ n) := by
  constructor
  · intro h
    unfold parseLine at h
    split at h
    · rename_i code name heq
      simp only [Except.ok.injEq, Prod.mk.injEq] at h
      obtain ⟨h1, h2⟩ := h
      subst h1
      subst h2
      exact splitOnSemi_pair heq
    · simp at h
  · rintro ⟨h1, h2, h3⟩
    rw [h1]
    exact parseLine_render h2 h3

theorem countSemi_append (a b : Line) :
    countSemi (a ++ b) = countSemi a + countSemi b := by
  induction a with
  | nil => simp [countSemi]
  | cons x xs ih => simp [countSemi, ih, Nat.add_assoc]

theorem countSemi_eq_zero {l : Line} (h : ';' ∉ l) : countSemi l = 0 := by
  induction l with
  | nil => rfl
  | cons c cs ih =>
    have hc : ¬ c = ';' := fun he => h (he ▸ List.mem_cons_self c cs)
    have hcs : ';' ∉ cs := fun hm => h (List.mem_cons_of_mem c hm)
    simp [countSemi, hc, ih hcs]

theorem parseLine_ok_count {l : Line} :
    (∃ p, parseLine l = Except.ok p) ↔ countSemi l = 1 := by
  constructor
  · rintro ⟨⟨c, n⟩, h⟩
    obtain ⟨h1, h2, h3⟩ := parseLine_ok_iff.mp h
    rw [h1, countSemi_append, countSemi_eq_zero h2]
    simp [countSemi, countSemi_eq_zero h3]
  · intro h
    have hlen : (splitOnSemi l).length = 2 := by rw [splitOnSemi_length, h]
    rcases hs : splitOnSemi l with _ | ⟨a, _ | ⟨b, _ | ⟨d, ds⟩⟩⟩ <;>
      rw [hs] at hlen <;> simp at hlen
    obtain ⟨he, hc, hn⟩ := splitOnSemi_pair hs
    exact ⟨(a, b), by rw [he]; exact parseLine_render hc hn⟩

theorem parseLine_error_of_no_semi {l : Line} (h : ';' ∉ l) :
    parseLine l = Except.error () := by
  unfold parseLine
  rw [splitOnSemi_no_semi h]

theorem parseLines_error_of_mem {ls : List Line} {l : Line} (hm : l ∈ ls)
    (he : parseLine l = Except.error ()) : parseLines ls = Except.error () := by
  induction ls with
  | nil => cases hm
  | cons a ls' ih =>
    rcases List.mem_cons.mp hm with h1 | h2
    · subst h1
      simp [parseLines, he]
    · cases hp : parseLine a with
      | error e => simp [parseLines, hp]
      | ok p => simp [parseLines, hp, ih h2]

theorem parseLines_ok_forall {ls : List Line} {recs : List (Line × Line)}
    (h : parseLines ls = Except.ok recs) :
    ∀ r ∈ recs, ∃ l ∈ ls, parseLine l = Except.ok r := by
  induction ls generalizing recs with
  | nil =>
    simp only [parseLines, Except.ok.injEq] at h
    subst h
    intro r hr
    cases hr
  | cons a ls' ih =>
    cases hp : parseLine a with
    | error e => simp [parseLines, hp] at h
    | ok p =>
      cases hps : parseLines ls' with
      | error e => simp [parseLines, hp, hps] at h
      | ok ps =>
        simp only [parseLines, hp, hps, Except.ok.injEq] at h
        subst h
        intro r hr
        rcases List.mem_cons.mp hr with h1 | h2
        · exact ⟨a, List.mem_cons_self a ls', h1 ▸ hp⟩
        · obtain ⟨l, hl, hok⟩ := ih hps r h2
          exact ⟨l, List.mem_cons_of_mem a hl, hok⟩

theorem parseLines_map {ps : List (Line × Line)} {g : Line × Line → Line}
    (h : ∀ p ∈ ps, parseLine (g p) = Except.ok p) :
    parseLines (ps.map g) = Except.ok ps := by
  induction ps with
  | nil => rfl
  | cons p ps' ih =>
    simp only [List.map_cons, parseLines, h p (List.mem_cons_self p ps'),
      ih (fun q hq => h q (List.mem_cons_of_mem p hq))]

/-! ### Lemmas about `stripChars` -/

theorem head?_dropWhile_false (p : Char → Bool) (l : Line) :
    ∀ h ∈ (l.dropWhile p).head?, p h = false := by
  induction l with
  | nil => intro h hm; cases hm
  | cons a l' ih =>
    intro h hm
    by_cases hp : p a
    · rw [List.dropWhile_cons, if_pos hp] at hm
      exact ih h hm
    · rw [List.dropWhile_cons, if_neg hp, List.head?_cons, Option.mem_def,
        Option.some.injEq] at hm
      subst hm
      exact Bool.eq_false_iff.mpr hp

theorem mem_stripChars {c : Char} {l : Line} (h : c ∈ stripChars l) : c ∈ l := by
  unfold stripChars at h
  rw [List.mem_reverse] at h
  have h1 := (List.dropWhile_suffix isSpace).subset h
  rw [List.mem_reverse] at h1
  exact (List.dropWhile_suffix isSpace).subset h1

theorem stripChars_goodLast (l : Line) : goodLast (stripChars l) := by
  intro h hm
  unfold stripChars at hm
  rw [List.getLast?_reverse] at hm
  exact head?_dropWhile_false isSpace _ h hm

theorem stripChars_goodHead (l : Line) : goodHead (stripChars l) := by
  intro h hm
  obtain ⟨z, hz⟩ :=
    List.dropWhile_suffix (l := (l.dropWhile isSpace).reverse) isSpace
  have hx : l.dropWhile isSpace = stripChars l ++ z.reverse := by
    have := congrArg List.reverse hz
    simpa [stripChars] using this.symm
  have hne : stripChars l ≠ [] := by
    intro he
    rw [he] at hm
    cases hm
  have hh : (l.dropWhile isSpace).head? = (stripChars l).head? := by
    rw [hx]
    exact List.head?_append_of_ne_nil _ hne
  exact head?_dropWhile_false isSpace l h (by rw [hh]; exact hm)

theorem dropWhile_eq_self_of_goodHead {l : Line} (h : goodHead l) :
    l.dropWhile isSpace = l := by
  cases l with
  | nil => rfl
  | cons a l' =>
    have ha := h a (by rw [List.head?_cons]; rfl)
    rw [List.dropWhile_cons, ha]
    simp

theorem stripChars_eq_self {l : Line} (h1 : goodHead l) (h2 : goodLast l) :
    stripChars l = l := by
  unfold stripChars
  rw [dropWhile_eq_self_of_goodHead h1]
  have hrev : goodHead l.reverse := by
    intro h hm
    rw [List.head?_reverse] at hm
    exact h2 h hm
  rw [dropWhile_eq_self_of_goodHead hrev, List.reverse_reverse]

theorem getLast?_cons_of_ne_nil (a : Char) {l : Line} (h : l ≠ []) :
    (a :: l).getLast? = l.getLast? := by
  cases l with
  | nil => exact absurd rfl h
  | cons b m => exact List.getLast?_cons_cons

theorem goodHead_renderPair {p : Line × Line} (h : goodHead p.1) :
    goodHead (renderPair p) := by
  obtain ⟨c, n⟩ := p
  intro x hm
  cases c with
  | nil =>
    rw [renderPair, List.nil_append, List.head?_cons, Option.mem_def,
      Option.some.injEq] at hm
    subst hm
    decide
  | cons a c' =>
    rw [renderPair, List.head?_append_of_ne_nil _ (by simp)] at hm
    exact h x hm

theorem goodLast_renderPair {p : Line × Line} (h : goodLast p.2) :
    goodLast (renderPair p) := by
  obtain ⟨c, n⟩ := p
  intro x hm
  cases n with
  | nil =>
    have : renderPair (c, ([] : Line)) = c ++ [';'] := rfl
    rw [this, List.getLast?_concat, Option.mem_def, Option.some.injEq] at hm
    subst hm
    decide
  | cons b m =>
    rw [renderPair, List.getLast?_append,
      getLast?_cons_of_ne_nil ';' (List.cons_ne_nil b m)] at hm
    obtain ⟨y, hy⟩ := Option.isSome_iff_exists.mp
      (List.getLast?_isSome.mpr (List.cons_ne_nil b m))
    rw [hy, Option.or_some, Option.mem_def, Option.some.injEq] at hm
    subst hm
    exact h y (by rw [Option.mem_def, hy])

theorem stripChars_renderPair {p : Line × Line} (h1 : goodHead p.1)
    (h2 : goodLast p.2) : stripChars (renderPair p) = renderPair p :=
  stripChars_eq_self (goodHead_renderPair h1) (goodLast_renderPair h2)

theorem goodParts_of_parse {x c n : Line}
    (h : parseLine (stripChars x) = Except.ok (c, n)) :
    goodHead c ∧ goodLast n := by
  obtain ⟨h1, _, _⟩ := parseLine_ok_iff.mp h
  constructor
  · intro y hy
    have hc : c ≠ [] := by
      intro he
      rw [he] at hy
      cases hy
    have hh : (stripChars x).head? = c.head? := by
      rw [h1]
      exact List.head?_append_of_ne_nil c hc
    exact stripChars_goodHead x y (by rw [hh]; exact hy)
  · intro y hy
    have hn : n ≠ [] := by
      intro he
      rw [he] at hy
      cases hy
    have hh : (stripChars x).getLast? = n.getLast? := by
      rw [h1, List.getLast?_append, getLast?_cons_of_ne_nil ';' hn]
      obtain ⟨z, hz⟩ := Option.isSome_iff_exists.mp (List.getLast?_isSome.mpr hn)
      rw [hz, Option.or_some]
    exact stripChars_goodLast x y (by rw [hh]; exact hy)

/-! ### Lemmas about grouping -/

theorem addRecord_getCities (t : List (Line × List Line)) (c n k : Line) :
    getCities (addRecord t c n) k =
      if k = c then getCities t c ++ [n] else getCities t k := by
  induction t with
  | nil =>
    by_cases hk : k = c
    · subst hk
      simp [addRecord, getCities]
    · have hck : ¬ c = k := fun h => hk h.symm
      simp [addRecord, getCities, hk, hck]
  | cons kv rest ih =>
    obtain ⟨k', v⟩ := kv
    by_cases h1 : k' = c
    · subst h1
      by_cases hk : k = k'
      · subst hk
        simp [addRecord, getCities]
      · have hks : ¬ k' = k := fun h => hk h.symm
        simp [addRecord, getCities, hk, hks]
    · by_cases hk : k' = k
      · subst hk
        have hkc : ¬ k' = c := h1
        simp [addRecord, getCities, h1, hkc]
      · simp [addRecord, getCities, h1, hk, ih]

theorem addRecord_keys (t : List (Line × List Line)) (c n : Line) :
    (addRecord t c n).map Prod.fst =
      if c ∈ t.map Prod.fst then t.map Prod.fst
      else t.map Prod.fst ++ [c] := by
  induction t with
  | nil => simp [addRecord]
  | cons kv rest ih =>
    obtain ⟨k', v⟩ := kv
    by_cases h1 : k' = c
    · subst h1
      simp [addRecord]
    · have hne : ¬ c = k' := fun h => h1 h.symm
      by_cases h2 : c ∈ rest.map Prod.fst
      · simp [addRecord, h1, ih, h2, hne]
      · simp [addRecord, h1, ih, h2, hne]

theorem foldl_addRecord_getCities (recs : List (Line × Line))
    (t : List (Line × List Line)) (k : Line) :
    getCities (recs.foldl (fun t r => addRecord t r.1 r.2) t) k =
      getCities t k ++ citiesOf recs k := by
  induction recs generalizing t with
  | nil => simp [citiesOf]
  | cons r rs ih =>
    rw [List.foldl_cons, ih, addRecord_getCities]
    by_cases hk : k = r.1
    · rw [if_pos hk, citiesOf, if_pos hk.symm, List.append_assoc,
        List.singleton_append, hk]
    · rw [if_neg hk, citiesOf, if_neg (fun h => hk h.symm)]

theorem getCities_groupRecords (recs : List (Line × Line)) (k : Line) :
    getCities (groupRecords recs) k = citiesOf recs k := by
  rw [groupRecords, foldl_addRecord_getCities]
  rfl

theorem foldl_addRecord_keys (recs : List (Line × Line))
    (t : List (Line × List Line)) :
    (recs.foldl (fun t r => addRecord t r.1 r.2) t).map Prod.fst =
      firstSeenAux (t.map Prod.fst) (recs.map Prod.fst) := by
  induction recs generalizing t with
  | nil => rfl
  | cons r rs ih =>
    rw [List.foldl_cons, ih, List.map_cons, firstSeenAux, addRecord_keys]

theorem keys_groupRecords (recs : List (Line × Line)) :
    (groupRecords recs).map Prod.fst = firstSeen (recs.map Prod.fst) := by
  rw [groupRecords, foldl_addRecord_keys]
  rfl

theorem addRecord_keys_nodup {t : List (Line × List Line)}
    (h : (t.map Prod.fst).Nodup) (c n : Line) :
    ((addRecord t c n).map Prod.fst).Nodup := by
  rw [addRecord_keys]
  by_cases hc : c ∈ t.map Prod.fst
  · rw [if_pos hc]
    exact h
  · rw [if_neg hc]
    refine List.Nodup.append h (List.nodup_singleton c) ?_
    intro x hx hy
    rw [List.mem_singleton] at hy
    subst hy
    exact hc hx

theorem groupRecords_keys_nodup (recs : List (Line × Line)) :
    ((groupRecords recs).map Prod.fst).Nodup := by
  rw [groupRecords]
  have key : ∀ (rs : List (Line × Line)) (t : List (Line × List Line)),
      (t.map Prod.fst).Nodup →
      ((rs.foldl (fun t r => addRecord t r.1 r.2) t).map Prod.fst).Nodup := by
    intro rs
    induction rs with
    | nil => intro t h; exact h
    | cons r rs' ih =>
      intro t h
      exact ih _ (addRecord_keys_nodup h r.1 r.2)
  exact key recs [] (by simp)

theorem addRecord_values_ne_nil {t : List (Line × List Line)}
    (h : ∀ kv ∈ t, kv.2 ≠ []) (c n : Line) :
    ∀ kv ∈ addRecord t c n, kv.2 ≠ [] := by
  induction t with
  | nil =>
    intro kv hm
    rw [addRecord, List.mem_singleton] at hm
    subst hm
    simp
  | cons kv' rest ih =>
    obtain ⟨k', v⟩ := kv'
    intro kv hm
    by_cases h1 : k' = c
    · rw [addRecord, if_pos h1] at hm
      rcases List.mem_cons.mp hm with h2 | h2
      · subst h2
        simp
      · exact h kv (List.mem_cons_of_mem _ h2)
    · rw [addRecord, if_neg h1] at hm
      rcases List.mem_cons.mp hm with h2 | h2
      · subst h2
        exact h (k', v) (List.mem_cons_self _ _)
      · exact ih (fun kv hk => h kv (List.mem_cons_of_mem _ hk)) kv h2

theorem groupRecords_values_ne_nil (recs : List (Line × Line)) :
    ∀ kv ∈ groupRecords recs, kv.2 ≠ [] := by
  rw [groupRecords]
  have key : ∀ (rs : List (Line × Line)) (t : List (Line × List Line)),
      (∀ kv ∈ t, kv.2 ≠ []) →
      ∀ kv ∈ rs.foldl (fun t r => addRecord t r.1 r.2) t, kv.2 ≠ [] := by
    intro rs
    induction rs with
    | nil => intro t h; exact h
    | cons r rs' ih =>
      intro t h
      exact ih _ (addRecord_values_ne_nil h r.1 r.2)
  exact key recs [] (by intro kv hm; cases hm)

/-! ### Lemmas about the sort -/

theorem sortCities_perm (v : List Line) : (sortCities v).Perm v :=
  List.perm_insertionSort longerEq v

theorem sortCities_sorted (v : List Line) : List.Sorted longerEq (sortCities v) :=
  List.sorted_insertionSort longerEq v

theorem sortCities_idem (v : List Line) :
    sortCities (sortCities v) = sortCities v :=
  (sortCities_sorted v).insertionSort_eq

theorem ofLength_orderedInsert (n : Nat) (a : Line) (l : List Line) :
    ofLength n (List.orderedInsert longerEq a l) =
      if a.length = n then a :: ofLength n l else ofLength n l := by
  induction l with
  | nil => simp [List.orderedInsert, ofLength]
  | cons b m ih =>
    by_cases hr : longerEq a b
    · rw [List.orderedInsert, if_pos hr, ofLength]
    · rw [List.orderedInsert, if_neg hr]
      have hab : a.length < b.length := by
        simp only [longerEq, not_le] at hr
        exact hr
      by_cases ha : a.length = n
      · have hb : ¬ b.length = n := by omega
        simp [ofLength, ih, ha, hb]
      · by_cases hb : b.length = n <;> simp [ofLength, ih, ha, hb]

theorem ofLength_sortCities (n : Nat) (v : List Line) :
    ofLength n (sortCities v) = ofLength n v := by
  induction v with
  | nil => rfl
  | cons a m ih =>
    rw [sortCities, List.insertionSort, ofLength_orderedInsert]
    by_cases ha : a.length = n
    · rw [if_pos ha, ofLength, if_pos ha]
      exact congrArg (a :: ·) ih
    · rw [if_neg ha, ofLength, if_neg ha]
      exact ih

/-! ### Lemmas about the output structure -/

theorem citiesOf_append (a b : List (Line × Line)) (k : Line) :
    citiesOf (a ++ b) k = citiesOf a k ++ citiesOf b k := by
  induction a with
  | nil => rfl
  | cons r rs ih => by_cases h : r.1 = k <;> simp [citiesOf, h, ih]

theorem citiesOf_map_const (k' : Line) (v : List Line) (k : Line) :
    citiesOf (v.map (fun c => (k', c))) k = if k' = k then v else [] := by
  induction v with
  | nil => by_cases h : k' = k <;> simp [citiesOf, h]
  | cons c m ih =>
    by_cases h : k' = k
    · subst h
      simp [citiesOf, ih]
    · simp [citiesOf, h, ih]

theorem citiesOf_outputPairs_not_mem {t : List (Line × List Line)} {k : Line}
    (h : k ∉ t.map Prod.fst) : citiesOf (outputPairs t) k = [] := by
  induction t with
  | nil => rfl
  | cons kv rest ih =>
    obtain ⟨k', v⟩ := kv
    rw [outputPairs, citiesOf_append, citiesOf_map_const]
    have hk : ¬ k' = k := fun he => h (by simp [he])
    rw [if_neg hk, List.nil_append]
    exact ih (fun hm => h (by simp [hm]))

theorem citiesOf_outputPairs {t : List (Line × List Line)} (k : Line)
    (h : (t.map Prod.fst).Nodup) :
    citiesOf (outputPairs t) k = sortCities (getCities t k) := by
  induction t with
  | nil => rfl
  | cons kv rest ih =>
    obtain ⟨k', v⟩ := kv
    rw [List.map_cons] at h
    obtain ⟨hnm, hnd⟩ := List.nodup_cons.mp h
    rw [outputPairs, citiesOf_append, citiesOf_map_const, getCities]
    by_cases hk : k' = k
    · rw [if_pos hk, if_pos hk]
      have hkr : k ∉ rest.map Prod.fst := hk ▸ hnm
      rw [citiesOf_outputPairs_not_mem hkr, List.append_nil]
    · rw [if_neg hk, if_neg hk, List.nil_append]
      exact ih hnd

theorem mem_outputPairs_fst {t : List (Line × List Line)} {r : Line × Line}
    (h : r ∈ outputPairs t) : r.1 ∈ t.map Prod.fst := by
  induction t with
  | nil => cases h
  | cons kv rest ih =>
    obtain ⟨k', v⟩ := kv
    rw [outputPairs] at h
    rcases List.mem_append.mp h with h1 | h2
    · obtain ⟨c, _, he⟩ := List.mem_map.mp h1
      rw [← he]
      simp
    · simp [ih h2]

theorem outputPairs_perm_flatPairs (t : List (Line × List Line)) :
    (outputPairs t).Perm (flatPairs t) := by
  induction t with
  | nil => exact List.Perm.refl []
  | cons kv rest ih =>
    obtain ⟨k', v⟩ := kv
    rw [outputPairs, flatPairs]
    exact List.Perm.append ((sortCities_perm v).map _) ih

theorem flatPairs_addRecord (t : List (Line × List Line)) (c n : Line) :
    (flatPairs (addRecord t c n)).Perm (flatPairs t ++ [(c, n)]) := by
  induction t with
  | nil => simp [addRecord, flatPairs]
  | cons kv rest ih =>
    obtain ⟨k', v⟩ := kv
    by_cases h : k' = c
    · subst h
      rw [addRecord, if_pos rfl, flatPairs, flatPairs, List.map_append,
        List.append_assoc, List.append_assoc]
      exact List.Perm.append_left _
        (by simpa using @List.perm_append_comm _ [(k', n)] (flatPairs rest))
    · rw [addRecord, if_neg h, flatPairs, flatPairs, List.append_assoc]
      exact List.Perm.append_left _ ih

theorem flatPairs_foldl (recs : List (Line × Line))
    (t : List (Line × List Line)) :
    (flatPairs (recs.foldl (fun t r => addRecord t r.1 r.2) t)).Perm
      (flatPairs t ++ recs) := by
  induction recs generalizing t with
  | nil => simp
  | cons r rs ih =>
    obtain ⟨a, b⟩ := r
    rw [List.foldl_cons]
    refine (ih _).trans ?_
    refine ((flatPairs_addRecord t a b).append_right rs).trans ?_
    rw [List.append_assoc, List.singleton_append]

theorem outputPairs_groupRecords_perm (recs : List (Line × Line)) :
    (outputPairs (groupRecords recs)).Perm recs := by
  refine (outputPairs_perm_flatPairs _).trans ?_
  rw [groupRecords]
  simpa [flatPairs] using flatPairs_foldl recs []

/-! ### Lemmas about key order and contiguity -/

theorem firstSeenAux_map_const_mem {k : Line} {acc : List Line} (h : k ∈ acc)
    (v : List Line) (cs : List Line) :
    firstSeenAux acc (v.map (fun _ => k) ++ cs) = firstSeenAux acc cs := by
  induction v with
  | nil => rfl
  | cons c m ih =>
    simp only [List.map_cons, List.cons_append, firstSeenAux, if_pos h]
    exact ih

theorem firstSeenAux_const_block {k : Line} {acc : List Line} (h : k ∉ acc)
    {v : List Line} (hv : v ≠ []) (cs : List Line) :
    firstSeenAux acc (v.map (fun _ => k) ++ cs) = firstSeenAux (acc ++ [k]) cs := by
  obtain ⟨c0, m, rfl⟩ := List.exists_cons_of_ne_nil hv
  simp only [List.map_cons, List.cons_append, firstSeenAux, if_neg h]
  exact firstSeenAux_map_const_mem (by simp) m cs

theorem map_fst_block (k : Line) (v : List Line) :
    (v.map (fun c => (k, c))).map Prod.fst = v.map (fun _ => k) := by
  rw [List.map_map]
  rfl

theorem sortCities_ne_nil {v : List Line} (hv : v ≠ []) : sortCities v ≠ [] := by
  intro he
  have hlen := (sortCities_perm v).length_eq
  rw [he] at hlen
  exact hv (List.length_eq_zero.mp hlen.symm)

theorem firstSeenAux_outputPairs :
    ∀ (t : List (Line × List Line)) (acc : List Line),
      (∀ k ∈ t.map Prod.fst, k ∉ acc) → (t.map Prod.fst).Nodup →
      (∀ kv ∈ t, kv.2 ≠ []) →
      firstSeenAux acc ((outputPairs t).map Prod.fst) = acc ++ t.map Prod.fst := by
  intro t
  induction t with
  | nil =>
    intro acc _ _ _
    simp [outputPairs, firstSeenAux]
  | cons kv rest ih =>
    obtain ⟨k, v⟩ := kv
    intro acc hacc hnd hne
    rw [outputPairs, List.map_append, map_fst_block]
    have hv : v ≠ [] := hne (k, v) (List.mem_cons_self _ _)
    rw [firstSeenAux_const_block (hacc k (by simp)) (sortCities_ne_nil hv)]
    rw [List.map_cons] at hnd
    obtain ⟨hnm, hnd'⟩ := List.nodup_cons.mp hnd
    have h1 : ∀ k2 ∈ rest.map Prod.fst, k2 ∉ acc ++ [k] := by
      intro k2 hk2 hmem
      rcases List.mem_append.mp hmem with hm1 | hm1
      · exact hacc k2 (by simp [hk2]) hm1
      · rw [List.mem_singleton] at hm1
        subst hm1
        exact hnm hk2
    have h3 : ∀ kv ∈ rest, kv.2 ≠ [] :=
      fun kv hm => hne kv (List.mem_cons_of_mem _ hm)
    rw [ih (acc ++ [k]) h1 hnd' h3, List.map_cons, List.append_assoc,
      List.singleton_append]

theorem firstSeen_outputPairs {t : List (Line × List Line)}
    (hnd : (t.map Prod.fst).Nodup) (hne : ∀ kv ∈ t, kv.2 ≠ []) :
    firstSeen ((outputPairs t).map Prod.fst) = t.map Prod.fst := by
  rw [firstSeen, firstSeenAux_outputPairs t [] (by intro k _ h; cases h) hnd hne]
  rfl

theorem pairsOf_append (k : Line) (a b : List (Line × Line)) :
    pairsOf k (a ++ b) = pairsOf k a ++ pairsOf k b := by
  induction a with
  | nil => rfl
  | cons r rs ih => by_cases h : r.1 = k <;> simp [pairsOf, h, ih]

theorem pairsOf_block_eq (k : Line) (v : List Line) :
    pairsOf k (v.map (fun c => (k, c))) = v.map (fun c => (k, c)) := by
  induction v with
  | nil => rfl
  | cons c m ih => simp [pairsOf, ih]

theorem pairsOf_block_ne {k k' : Line} (h : ¬ k' = k) (v : List Line) :
    pairsOf k (v.map (fun c => (k', c))) = [] := by
  induction v with
  | nil => rfl
  | cons c m ih => simp [pairsOf, h, ih]

theorem pairsOf_nil_of_not_mem {t : List (Line × List Line)} {k : Line}
    (h : k ∉ t.map Prod.fst) : pairsOf k (outputPairs t) = [] := by
  induction t with
  | nil => rfl
  | cons kv rest ih =>
    obtain ⟨k', v⟩ := kv
    rw [outputPairs, pairsOf_append,
      pairsOf_block_ne (fun he => h (by simp [he])) (sortCities v),
      List.nil_append]
    exact ih (fun hm => h (by simp [hm]))

theorem outputPairs_contiguous (t : List (Line × List Line)) (k : Line) :
    (t.map Prod.fst).Nodup →
    ∃ p q, outputPairs t = p ++ pairsOf k (outputPairs t) ++ q ∧
      (∀ r ∈ p, r.1 ≠ k) ∧ (∀ r ∈ q, r.1 ≠ k) := by
  induction t with
  | nil => exact fun _ => ⟨[], [], rfl, by simp, by simp⟩
  | cons kv rest ih =>
    intro hnd
    obtain ⟨k', v⟩ := kv
    rw [List.map_cons] at hnd
    obtain ⟨hnm, hnd'⟩ := List.nodup_cons.mp hnd
    by_cases hk : k' = k
    · subst hk
      refine ⟨[], outputPairs rest, ?_, by simp, ?_⟩
      · rw [outputPairs, pairsOf_append, pairsOf_block_eq,
          pairsOf_nil_of_not_mem hnm, List.append_nil, List.nil_append]
      · intro r hr he
        exact hnm (he ▸ mem_outputPairs_fst hr)
    · obtain ⟨p, q, hout, hp, hq⟩ := ih hnd'
      refine ⟨(sortCities v).map (fun c => (k', c)) ++ p, q, ?_, ?_, hq⟩
      · rw [outputPairs, pairsOf_append, pairsOf_block_ne hk, List.nil_append]
        conv_lhs => rw [hout]
        simp [List.append_assoc]
      · intro r hr
        rcases List.mem_append.mp hr with h1 | h1
        · obtain ⟨c, _, he⟩ := List.mem_map.mp h1
          rw [← he]
          exact fun hc => hk hc
        · exact hp r h1

/-! ### Reconstruction of the table and idempotence -/

theorem table_eq_keys_map {t : List (Line × List Line)}
    (h : (t.map Prod.fst).Nodup) :
    t = (t.map Prod.fst).map (fun k => (k, getCities t k)) := by
  induction t with
  | nil => rfl
  | cons kv rest ih =>
    obtain ⟨k, v⟩ := kv
    rw [List.map_cons] at h
    obtain ⟨hnm, hnd⟩ := List.nodup_cons.mp h
    rw [List.map_cons, List.map_cons]
    congr 1
    · simp [getCities]
    · have hmaps : (rest.map Prod.fst).map
          (fun k' => (k', getCities ((k, v) :: rest) k'))
          = (rest.map Prod.fst).map (fun k' => (k', getCities rest k')) := by
        apply List.map_congr_left
        intro a ha
        have hak : ¬ k = a := fun he => hnm (he ▸ ha)
        simp [getCities, hak]
      rw [hmaps, ← ih hnd]

theorem getCities_sortTable (t : List (Line × List Line)) (k : Line) :
    getCities (sortTable t) k = sortCities (getCities t k) := by
  induction t with
  | nil => rfl
  | cons kv rest ih =>
    obtain ⟨k', v⟩ := kv
    have hst : sortTable ((k', v) :: rest) = (k', sortCities v) :: sortTable rest :=
      rfl
    rw [hst, getCities, getCities]
    by_cases h : k' = k
    · rw [if_pos h, if_pos h]
    · rw [if_neg h, if_neg h, ih]

theorem keys_sortTable (t : List (Line × List Line)) :
    (sortTable t).map Prod.fst = t.map Prod.fst := by
  rw [sortTable, List.map_map]
  rfl

theorem outputPairs_sortTable (t : List (Line × List Line)) :
    outputPairs (sortTable t) = outputPairs t := by
  induction t with
  | nil => rfl
  | cons kv rest ih =>
    obtain ⟨k', v⟩ := kv
    have hst : sortTable ((k', v) :: rest) = (k', sortCities v) :: sortTable rest :=
      rfl
    rw [hst, outputPairs, outputPairs, sortCities_idem, ih]

theorem sortTable_values_ne_nil {t : List (Line × List Line)}
    (h : ∀ kv ∈ t, kv.2 ≠ []) : ∀ kv ∈ sortTable t, kv.2 ≠ [] := by
  intro kv hm
  rw [sortTable] at hm
  obtain ⟨kv', hm', he⟩ := List.mem_map.mp hm
  rw [← he]
  exact sortCities_ne_nil (h kv' hm')

theorem groupRecords_outputPairs {t : List (Line × List Line)}
    (hnd : (t.map Prod.fst).Nodup) (hne : ∀ kv ∈ t, kv.2 ≠ []) :
    groupRecords (outputPairs t) = sortTable t := by
  have hkeys : (groupRecords (outputPairs t)).map Prod.fst = t.map Prod.fst := by
    rw [keys_groupRecords, firstSeen_outputPairs hnd hne]
  have hnd1 : ((groupRecords (outputPairs t)).map Prod.fst).Nodup :=
    groupRecords_keys_nodup _
  have hnd2 : ((sortTable t).map Prod.fst).Nodup := by
    rw [keys_sortTable]
    exact hnd
  have hget : ∀ k, getCities (groupRecords (outputPairs t)) k
      = getCities (sortTable t) k := by
    intro k
    rw [getCities_groupRecords, citiesOf_outputPairs k hnd, getCities_sortTable]
  conv_lhs => rw [table_eq_keys_map hnd1]
  conv_rhs => rw [table_eq_keys_map hnd2]
  rw [hkeys, keys_sortTable]
  apply List.map_congr_left
  intro a _
  rw [hget a]

theorem formatter_ok_inv {raw out : List Line}
    (h : formatter raw = Except.ok out) :
    ∃ recs, parseLines (raw.map stripChars) = Except.ok recs ∧
      out = (outputPairs (groupRecords recs)).map renderPair := by
  unfold formatter formatterPairs at h
  cases hp : parseLines (raw.map stripChars) with
  | error e =>
    rw [hp] at h
    exact Except.noConfusion h
  | ok recs =>
    rw [hp] at h
    refine ⟨recs, rfl, ?_⟩
    injection h with h'
    exact h'.symm

theorem formatter_idem {raw out : List Line}
    (h : formatter raw = Except.ok out) : formatter out = Except.ok out := by
  obtain ⟨recs, hp, hout⟩ := formatter_ok_inv h
  have hnd := groupRecords_keys_nodup recs
  have hne := groupRecords_values_ne_nil recs
  have hrec : ∀ r ∈ recs,
      goodHead r.1 ∧ goodLast r.2 ∧ ';' ∉ r.1 ∧ ';' ∉ r.2 := by
    intro r hr
    obtain ⟨l, hl, hok⟩ := parseLines_ok_forall hp r hr
    obtain ⟨x, _, hxl⟩ := List.mem_map.mp hl
    subst hxl
    obtain ⟨g1, g2⟩ := goodParts_of_parse (x := x) (c := r.1) (n := r.2) hok
    obtain ⟨_, s1, s2⟩ := (parseLine_ok_iff (c := r.1) (n := r.2)).mp hok
    exact ⟨g1, g2, s1, s2⟩
  have hps : ∀ p ∈ outputPairs (groupRecords recs),
      goodHead p.1 ∧ goodLast p.2 ∧ ';' ∉ p.1 ∧ ';' ∉ p.2 :=
    fun p hp2 => hrec p ((outputPairs_groupRecords_perm recs).mem_iff.mp hp2)
  have hparse2 : parseLines (out.map stripChars)
      = Except.ok (outputPairs (groupRecords recs)) := by
    rw [hout, List.map_map]
    have hfix : ∀ p ∈ outputPairs (groupRecords recs),
        (stripChars ∘ renderPair) p = renderPair p := by
      intro p hp2
      obtain ⟨g1, g2, _, _⟩ := hps p hp2
      exact stripChars_renderPair g1 g2
    rw [List.map_congr_left hfix]
    apply parseLines_map
    intro p hp2
    obtain ⟨_, _, s1, s2⟩ := hps p hp2
    exact parseLine_render s1 s2
  have hfp : formatterPairs out = Except.ok (outputPairs (groupRecords recs)) := by
    unfold formatterPairs
    rw [hparse2]
    show Except.ok (outputPairs (groupRecords (outputPairs (groupRecords recs))))
      = Except.ok (outputPairs (groupRecords recs))
    rw [groupRecords_outputPairs hnd hne, outputPairs_sortTable]
  unfold formatter
  rw [hfp, hout]

/-! ### Run-level inversion helpers -/

theorem formatterPairs_eq_of_parse {raw : List Line} {recs : List (Line × Line)}
    (h : parseLines (raw.map stripChars) = Except.ok recs) :
    formatterPairs raw = Except.ok (outputPairs (groupRecords recs)) := by
  unfold formatterPairs
  rw [h]

theorem formatterPairs_ok_inv {raw : List Line} {ps : List (Line × Line)}
    (h : formatterPairs raw = Except.ok ps) :
    ∃ recs, parseLines (raw.map stripChars) = Except.ok recs ∧
      ps = outputPairs (groupRecords recs) := by
  unfold formatterPairs at h
  cases hp : parseLines (raw.map stripChars) with
  | error e =>
    rw [hp] at h
    exact Except.noConfusion h
  | ok recs =>
    rw [hp] at h
    injection h with h'
    exact ⟨recs, rfl, h'.symm⟩

theorem formatterPairs_ok_shape {raw : List Line} {recs ps : List (Line × Line)}
    (h : parseLines (raw.map stripChars) = Except.ok recs)
    (h2 : formatterPairs raw = Except.ok ps) :
    ps = outputPairs (groupRecords recs) := by
  rw [formatterPairs_eq_of_parse h] at h2
  injection h2 with h'
  exact h'.symm

/-- Decomposition of `stripChars`: the raw line is a whitespace prefix,
then the stripped line, then a whitespace suffix. -/
theorem stripChars_decomposition (l : Line) :
    ∃ p s, (∀ c ∈ p, isSpace c = true) ∧ (∀ c ∈ s, isSpace c = true) ∧
      l = p ++ stripChars l ++ s := by
  refine ⟨l.takeWhile isSpace,
    ((l.dropWhile isSpace).reverse.takeWhile isSpace).reverse, ?_, ?_, ?_⟩
  · intro c hc
    exact List.mem_takeWhile_imp hc
  · intro c hc
    rw [List.mem_reverse] at hc
    exact List.mem_takeWhile_imp hc
  · conv_lhs => rw [← List.takeWhile_append_dropWhile isSpace l]
    rw [List.append_assoc]
    congr 1
    conv_lhs => rw [← List.reverse_reverse (l.dropWhile isSpace),
      ← List.takeWhile_append_dropWhile isSpace (l.dropWhile isSpace).reverse]
    rw [List.reverse_append]
    rfl

/-! ### Claim theorems -/

/-- C1, counterexample: the claim says a line with at least one `;` is
split at the first `;` even when the city part contains further `;`
characters, and that a parse error is signalled iff there is no `;`.
The code's `code, name = line.split(";")` splits at EVERY `;` and raises
on `"a;b;c"`, a line that does contain a separator. -/
theorem C1_counterexample :
    ';' ∈ "a;b;c".toList ∧ parseLine "a;b;c".toList = Except.error () :=
  ⟨by decide, rfl⟩

/-- C1, amended: parsing a trimmed line succeeds iff the line contains
exactly one `;` (so it also errors on two or more), and on success it
returns the substrings before and after that unique separator. -/
theorem C1_parse_amended (l : Line) :
    ((∃ p, parseLine l = Except.ok p) ↔ countSemi l = 1) ∧
    (∀ c n, parseLine l = Except.ok (c, n) →
      l = c ++ ';' :: n ∧ ';' ∉ c ∧ ';' ∉ n) :=
  ⟨parseLine_ok_count, fun _ _ h => parseLine_ok_iff.mp h⟩

/-- C1, witness: the amended theorem applied to the line `"AB;x"`. -/
theorem C1_witness :
    "AB;x".toList = "AB".toList ++ ';' :: "x".toList ∧
      ';' ∉ "AB".toList ∧ ';' ∉ "x".toList :=
  (C1_parse_amended "AB;x".toList).2 "AB".toList "x".toList (by rfl)

/-- C2, counterexample: the input `["a;b;c"]` is well-formed in the
claim's sense (every line contains at least one `;`) and the spec-side
first-`;` split parses one record, yet the run aborts with a parse error
and writes no pairs at all, so the output multiset is not the parsed
multiset. -/
theorem C2_counterexample :
    (∀ l ∈ ["a;b;c".toList], ';' ∈ l) ∧
    specSplitFirst "a;b;c".toList = ("a".toList, "b;c".toList) ∧
    formatterPairs ["a;b;c".toList] = Except.error () :=
  ⟨by decide, by decide, rfl⟩

/-- C2, amended: for every input on which parsing succeeds (each
stripped line has exactly one `;`), the list of (code, city) pairs
written is a permutation of the list of parsed records — multiset
equality, no record dropped or duplicated. -/
theorem C2_perm_amended {raw : List Line} {recs ps : List (Line × Line)}
    (h : parseLines (raw.map stripChars) = Except.ok recs)
    (h2 : formatterPairs raw = Except.ok ps) :
    ps.Perm recs := by
  rw [formatterPairs_ok_shape h h2]
  exact outputPairs_groupRecords_perm recs

/-- C2, witness: the amended theorem applied to the input
`["CA;b", "AB;cc", "CA;ddd"]`. -/
theorem C2_witness :
    [(("CA".toList : Line), "ddd".toList), ("CA".toList, "b".toList),
      ("AB".toList, "cc".toList)].Perm
      [("CA".toList, "b".toList), ("AB".toList, "cc".toList),
        ("CA".toList, "ddd".toList)] :=
  @C2_perm_amended ["CA;b".toList, "AB;cc".toList, "CA;ddd".toList]
    [("CA".toList, "b".toList), ("AB".toList, "cc".toList),
      ("CA".toList, "ddd".toList)]
    [("CA".toList, "ddd".toList), ("CA".toList, "b".toList),
      ("AB".toList, "cc".toList)]
    (by rfl) (by rfl)

/-- C3: for every input on which the run succeeds and every state code,
the city names of that state's output block appear in non-increasing
order of string length. -/
theorem C3_sorted_blocks {raw : List Line} {ps : List (Line × Line)}
    (h : formatterPairs raw = Except.ok ps) (k : Line) :
    (citiesOf ps k).Pairwise (fun a b => b.length ≤ a.length) := by
  obtain ⟨recs, _, hps⟩ := formatterPairs_ok_inv h
  subst hps
  rw [citiesOf_outputPairs k (groupRecords_keys_nodup recs)]
  exact (sortCities_sorted _).imp (fun hab => hab)

/-- C3, witness: the theorem applied to the input
`["CA;b", "AB;cc", "CA;ddd"]` and the state `"CA"`. -/
theorem C3_witness :
    (citiesOf [(("CA".toList : Line), "ddd".toList), ("CA".toList, "b".toList),
      ("AB".toList, "cc".toList)] "CA".toList).Pairwise
      (fun a b => b.length ≤ a.length) :=
  @C3_sorted_blocks ["CA;b".toList, "AB;cc".toList, "CA;ddd".toList]
    [("CA".toList, "ddd".toList), ("CA".toList, "b".toList),
      ("AB".toList, "cc".toList)]
    (by rfl) "CA".toList

/-- C4: the per-state sort is stable — for every state and every name
length, the sublist of that state's output cities having that length
equals the sublist of that state's input cities having that length, in
the same order. -/
theorem C4_stable {raw : List Line} {recs ps : List (Line × Line)}
    (h : parseLines (raw.map stripChars) = Except.ok recs)
    (h2 : formatterPairs raw = Except.ok ps) (k : Line) (n : Nat) :
    ofLength n (citiesOf ps k) = ofLength n (citiesOf recs k) := by
  rw [formatterPairs_ok_shape h h2,
    citiesOf_outputPairs k (groupRecords_keys_nodup recs),
    ofLength_sortCities, getCities_groupRecords]

/-- C4, witness: the theorem applied to the input
`["CA;aa", "CA;bb", "CA;c"]`, state `"CA"`, length 2. -/
theorem C4_witness :
    ofLength 2 (citiesOf [(("CA".toList : Line), "aa".toList),
      ("CA".toList, "bb".toList), ("CA".toList, "c".toList)] "CA".toList)
    = ofLength 2 (citiesOf [(("CA".toList : Line), "aa".toList),
      ("CA".toList, "bb".toList), ("CA".toList, "c".toList)] "CA".toList) :=
  @C4_stable ["CA;aa".toList, "CA;bb".toList, "CA;c".toList]
    [("CA".toList, "aa".toList), ("CA".toList, "bb".toList),
      ("CA".toList, "c".toList)]
    [("CA".toList, "aa".toList), ("CA".toList, "bb".toList),
      ("CA".toList, "c".toList)]
    (by rfl) (by rfl) "CA".toList 2

/-- C5: the output is grouped by state in key insertion order — the
distinct state codes of the output, in first-appearance order, are the
distinct state codes of the parsed input in first-appearance order, and
for every state the records of that state form one contiguous segment of
the output. -/
theorem C5_grouping {raw : List Line} {recs ps : List (Line × Line)}
    (h : parseLines (raw.map stripChars) = Except.ok recs)
    (h2 : formatterPairs raw = Except.ok ps) :
    firstSeen (ps.map Prod.fst) = firstSeen (recs.map Prod.fst) ∧
    ∀ k, ∃ p q, ps = p ++ pairsOf k ps ++ q ∧
      (∀ r ∈ p, r.1 ≠ k) ∧ (∀ r ∈ q, r.1 ≠ k) := by
  rw [formatterPairs_ok_shape h h2]
  constructor
  · rw [firstSeen_outputPairs (groupRecords_keys_nodup recs)
      (groupRecords_values_ne_nil recs), keys_groupRecords]
  · intro k
    exact outputPairs_contiguous _ k (groupRecords_keys_nodup recs)

/-- C5, witness: the theorem applied to the input
`["CA;b", "AB;cc", "CA;ddd"]`, with the contiguity part instantiated at
state `"CA"`. -/
theorem C5_witness :
    (firstSeen ([(("CA".toList : Line), "ddd".toList), ("CA".toList, "b".toList),
      ("AB".toList, "cc".toList)].map Prod.fst)
      = firstSeen ([(("CA".toList : Line), "b".toList), ("AB".toList, "cc".toList),
        ("CA".toList, "ddd".toList)].map Prod.fst)) ∧
    ∃ p q, [(("CA".toList : Line), "ddd".toList), ("CA".toList, "b".toList),
        ("AB".toList, "cc".toList)]
      = p ++ pairsOf "CA".toList [(("CA".toList : Line), "ddd".toList),
        ("CA".toList, "b".toList), ("AB".toList, "cc".toList)] ++ q ∧
      (∀ r ∈ p, r.1 ≠ "CA".toList) ∧ (∀ r ∈ q, r.1 ≠ "CA".toList) :=
  ⟨(@C5_grouping ["CA;b".toList, "AB;cc".toList, "CA;ddd".toList]
      [("CA".toList, "b".toList), ("AB".toList, "cc".toList),
        ("CA".toList, "ddd".toList)]
      [("CA".toList, "ddd".toList), ("CA".toList, "b".toList),
        ("AB".toList, "cc".toList)]
      (by rfl) (by rfl)).1,
    (@C5_grouping ["CA;b".toList, "AB;cc".toList, "CA;ddd".toList]
      [("CA".toList, "b".toList), ("AB".toList, "cc".toList),
        ("CA".toList, "ddd".toList)]
      [("CA".toList, "ddd".toList), ("CA".toList, "b".toList),
        ("AB".toList, "cc".toList)]
      (by rfl) (by rfl)).2 "CA".toList⟩

/-- C6: fail-fast atomicity — if any input line contains no `;`, the run
signals a parse error and produces no output: in this embedding the
result is `Except.error ()` with no output lines and no output pairs,
mirroring that the script opens the output file only after the parse
loop has completed, so the output file is never created or touched. -/
theorem C6_fail_fast {raw : List Line} {l : Line} (hm : l ∈ raw)
    (hs : ';' ∉ l) :
    formatter raw = Except.error () ∧ formatterPairs raw = Except.error () := by
  have h1 : ';' ∉ stripChars l := fun hc => hs (mem_stripChars hc)
  have h3 : parseLines (raw.map stripChars) = Except.error () :=
    parseLines_error_of_mem (List.mem_map_of_mem stripChars hm)
      (parseLine_error_of_no_semi h1)
  have h4 : formatterPairs raw = Except.error () := by
    unfold formatterPairs
    rw [h3]
  refine ⟨?_, h4⟩
  unfold formatter
  rw [h4]

/-- C6, witness: the theorem applied to the input `["NOCODEHERE"]`. -/
theorem C6_witness :
    formatter ["NOCODEHERE".toList] = Except.error () ∧
      formatterPairs ["NOCODEHERE".toList] = Except.error () :=
  C6_fail_fast (List.mem_cons_self _ _) (by decide)

/-- C7, counterexample: the claim says only trailing whitespace is
stripped and leading whitespace is preserved, but on the raw line
`" AB;x"` the code's `line.strip()` also removes the leading space: the
parser receives `"AB;x"`, not the trailing-only-stripped `" AB;x"`. -/
theorem C7_counterexample :
    stripChars " AB;x".toList = "AB;x".toList ∧
    specRstrip " AB;x".toList = " AB;x".toList ∧
    stripChars " AB;x".toList ≠ specRstrip " AB;x".toList :=
  ⟨by decide, by decide, by decide⟩

/-- C7, amended: the loader strips BOTH leading and trailing whitespace
from each raw line: the line the parser receives is the raw line minus a
whitespace prefix and a whitespace suffix, and it neither starts nor
ends with whitespace. -/
theorem C7_strip_amended (l : Line) :
    (∃ p s, (∀ c ∈ p, isSpace c = true) ∧ (∀ c ∈ s, isSpace c = true) ∧
      l = p ++ stripChars l ++ s) ∧
    goodHead (stripChars l) ∧ goodLast (stripChars l) :=
  ⟨stripChars_decomposition l, stripChars_goodHead l, stripChars_goodLast l⟩

/-- C8: idempotence — running the whole transform on its own output
reproduces that output exactly (in particular with identical per-state
ordering): re-parsing the written lines, re-grouping and re-sorting with
the stable sort is the identity on an already-sorted output. -/
theorem C8_idempotent {raw out : List Line}
    (h : formatter raw = Except.ok out) : formatter out = Except.ok out :=
  formatter_idem h

/-- C8, witness: the theorem applied to the input
`["CA;b", "AB;cc", "CA;ddd"]` and its output. -/
theorem C8_witness :
    formatter ["CA;ddd".toList, "CA;b".toList, "AB;cc".toList]
      = Except.ok ["CA;ddd".toList, "CA;b".toList, "AB;cc".toList] :=
  @C8_idempotent ["CA;b".toList, "AB;cc".toList, "CA;ddd".toList]
    ["CA;ddd".toList, "CA;b".toList, "AB;cc".toList] (by rfl)

/-- C9: determinism — the embedded run is a pure function of the input
lines, so two runs on equal input line sequences produce identical
output; there is no other source of variation in the model. -/
theorem C9_deterministic (r₁ r₂ : List Line) (h : r₁ = r₂) :
    formatter r₁ = formatter r₂ :=
  congrArg formatter h

/-- C9, witness: the theorem applied to the input `["AB;x"]`. -/
theorem C9_witness :
    formatter ["AB;x".toList] = formatter ["AB;x".toList] :=
  C9_deterministic ["AB;x".toList] ["AB;x".toList] rfl

/-- C10: empty fields are accepted without validation — a line `code;`
parses to the record (code, empty city) and `;name` to (empty code,
name), and such records are grouped and written back out unchanged, as
the concrete runs on `["AB;"]` and `[";name"]` show. -/
theorem C10_empty_fields :
    (∀ code : Line, ';' ∉ code →
      parseLine (code ++ [';']) = Except.ok (code, []) ∧
      parseLine (';' :: code) = Except.ok ([], code)) ∧
    formatter ["AB;".toList] = Except.ok ["AB;".toList] ∧
    formatter [";name".toList] = Except.ok [";name".toList] := by
  refine ⟨?_, rfl, rfl⟩
  intro code hc
  constructor
  · exact parseLine_render hc (List.not_mem_nil ';')
  · exact parseLine_render (List.not_mem_nil ';') hc

/-- C10, witness: the parsing part of the theorem applied to the code
`"AB"`. -/
theorem C10_witness :
    parseLine ("AB".toList ++ [';']) = Except.ok ("AB".toList, []) ∧
    parseLine (';' :: "AB".toList) = Except.ok ([], "AB".toList) :=
  C10_empty_fields.1 "AB".toList (by decide)

end GeoRs
